import Mathlib

/-!
Verification of the speech-to-move interpretation pipeline and the
confirmation dialogue state machine of the blindfold chess repository.

The JavaScript sources are shallowly embedded: strings are modelled as
lists of characters (with wrappers over Lean String at the API),
the React component state is modelled as an explicit record, and each
event handler becomes a pure transition function returning the updated
state together with the externally observable effects (speech output,
listening requests, engine requests).
-/

namespace Blindfold

/-- Characters of a string literal, used to write word constants. -/
def w (s : String) : List Char := s.data

/-! ## Character level utilities (JS string methods used by the sources) -/

/-- ASCII lowercasing of one character, modelling toLowerCase on the
    vocabulary handled by the app. -/
def lowerChar (c : Char) : Char :=
  if 'A' ≤ c ∧ c ≤ 'Z' then Char.ofNat (c.toNat + 32) else c

/-- Whitespace test modelling the regex class backslash-s on the ASCII
    whitespace characters. -/
def isWsC (c : Char) : Bool :=
  c = ' ' || c = '\t' || c = '\n' || c = '\r'

/-- Collapse runs of whitespace: state is whether the previous character
    was whitespace.  Each maximal whitespace run is emitted as one space,
    modelling replace of one-or-more whitespace by a single space. -/
def collapseWsAux : Bool → List Char → List Char
  | _, [] => []
  | prevWs, c :: cs =>
    if isWsC c then
      if prevWs then collapseWsAux true cs
      else ' ' :: collapseWsAux true cs
    else c :: collapseWsAux false cs

def collapseWs (cs : List Char) : List Char := collapseWsAux false cs

/-- JS String.trim restricted to the modelled whitespace characters. -/
def trimC (cs : List Char) : List Char :=
  ((cs.dropWhile isWsC).reverse.dropWhile isWsC).reverse

/-- JS split on a single space character: empty input yields one empty
    piece, exactly as in JS. -/
def splitSpace : List Char → List (List Char)
  | [] => [[]]
  | c :: cs =>
    if c = ' ' then [] :: splitSpace cs
    else
      match splitSpace cs with
      | t :: ts => (c :: t) :: ts
      | [] => [[c]]

/-- Join a token sequence back with single spaces. -/
def joinSpace : List (List Char) → List Char
  | [] => []
  | [t] => t
  | t :: ts => t ++ ' ' :: joinSpace ts

/-- Bool substring containment, modelling JS String.includes. -/
def containsSub (hay needle : List Char) : Bool :=
  hay.tails.any (fun s => needle.isPrefixOf s)

/-! ## sanFromSpeech.js -/

def numberWords : List (List Char × List Char) :=
  [(w "one", w "1"), (w "two", w "2"), (w "three", w "3"), (w "four", w "4"),
   (w "five", w "5"), (w "six", w "6"), (w "seven", w "7"), (w "eight", w "8")]

def pieceWords : List (List Char × List Char) :=
  [(w "knight", w "N"), (w "bishop", w "B"), (w "rook", w "R"),
   (w "queen", w "Q"), (w "king", w "K")]

def promoWords : List (List Char × List Char) :=
  [(w "queen", w "Q"), (w "rook", w "R"), (w "bishop", w "B"), (w "knight", w "N")]

/-- The lowercase alphanumeric characters kept by normToken. -/
def lowerAlnum : List Char := w "abcdefghijklmnopqrstuvwxyz0123456789"

/-- Strip every character that is not a lowercase letter or digit,
    modelling replace of the complement class by the empty string. -/
def stripNonAlnum (cs : List Char) : List Char :=
  cs.filter (fun c => lowerAlnum.contains c)

/-- normToken from sanFromSpeech.js: lowercase, trim, strip
    non-alphanumerics, then map spelled-out number words to digits. -/
def normToken (t : List Char) : List Char :=
  let s := stripNonAlnum (trimC (t.map lowerChar))
  match List.lookup s numberWords with
  | some d => d
  | none => s

def isFile (t : List Char) : Bool :=
  match t with
  | [c] => (w "abcdefgh").contains c
  | _ => false

def isRank (t : List Char) : Bool :=
  match t with
  | [c] => (w "12345678").contains c
  | _ => false

def toSquare (file rank : List Char) : List Char :=
  if isFile file && isRank rank then file ++ rank else []

/-- The cleaned transcript: lowercase, hyphens to spaces, whitespace
    collapsed, trimmed. -/
def clean (raw : List Char) : List Char :=
  trimC (collapseWs ((raw.map lowerChar).map (fun c => if c = '-' then ' ' else c)))

/-- The castling special cases of sanFromSpeech, matched on the cleaned
    string before tokenization; none means no castling phrase matched. -/
def castleResult (cleaned : List Char) : Option (List Char) :=
  if containsSub cleaned (w "castle") &&
     (containsSub cleaned (w "king side") || containsSub cleaned (w "kingside") ||
      containsSub cleaned (w "short")) then some (w "O-O")
  else if containsSub cleaned (w "castle") &&
     (containsSub cleaned (w "queen side") || containsSub cleaned (w "queenside") ||
      containsSub cleaned (w "long")) then some (w "O-O-O")
  else if cleaned = w "o o" || cleaned = w "oo" || cleaned = w "o-o" then some (w "O-O")
  else if cleaned = w "o o o" || cleaned = w "ooo" || cleaned = w "o-o-o" then some (w "O-O-O")
  else none

/-- Tokenization: split the cleaned string on spaces, normalize each
    token, drop empty results. -/
def tokenize (cleaned : List Char) : List (List Char) :=
  ((splitSpace cleaned).map normToken).filter (fun t => !t.isEmpty)

/-- Indexing with the out-of-bounds behaviour of JS: an index past the
    end yields a value on which isFile, isRank and the word tables all
    fail, modelled by the empty token. -/
def getTok (tokens : List (List Char)) (i : Nat) : List Char :=
  tokens.getD i []

def hasMateIn (tokens : List (List Char)) : Bool :=
  tokens.contains (w "checkmate") || tokens.contains (w "mate")

def hasCheckIn (tokens : List (List Char)) : Bool :=
  tokens.contains (w "check") || hasMateIn tokens

/-- Check or mate suffix: mate wins over check, never both. -/
def sufOf (tokens : List (List Char)) : List Char :=
  if hasMateIn tokens then w "#"
  else if hasCheckIn tokens then w "+"
  else []

/-- Inner loop of the promotion pre-scan: scan the window from i up to
    min (i+4) length, later matches overwriting earlier ones. -/
def promoScanWindow (tokens : List (List Char)) (i : Nat) (acc : List Char) : List Char :=
  ((List.range (min (i + 4) tokens.length - i)).map (fun k => i + k)).foldl
    (fun a j =>
      match List.lookup (getTok tokens j) promoWords with
      | some p => '=' :: p
      | none => a) acc

/-- Promotion pre-scan of sanFromSpeech: for each promote keyword, scan
    its window for a piece word. -/
def promoOf (tokens : List (List Char)) : List Char :=
  (List.range tokens.length).foldl
    (fun acc i =>
      if getTok tokens i = w "promote" || getTok tokens i = w "promotion" ||
         getTok tokens i = w "promotes" then promoScanWindow tokens i acc
      else acc) []

/-- Index of the first capture keyword, modelling findIndex. -/
def takesIdxOf (tokens : List (List Char)) : Option Nat :=
  tokens.findIdx? (fun t =>
    t == w "takes" || t == w "capture" || t == w "captures" || t == w "x")

/-- Guard of the pawn push branch. -/
def pawnGuard (tokens : List (List Char)) : Bool :=
  decide (2 ≤ tokens.length) && isFile (getTok tokens 0) && isRank (getTok tokens 1)

/-- Promotion used by the pawn push branch: the pre-scan result, or an
    inline third-token piece word when the pre-scan found nothing. -/
def pawnPromoOf (tokens : List (List Char)) : List Char :=
  let promo := promoOf tokens
  if promo.isEmpty && decide (3 ≤ tokens.length) &&
     (List.lookup (getTok tokens 2) promoWords).isSome then
    '=' :: (List.lookup (getTok tokens 2) promoWords).getD []
  else promo

/-- Result of the pawn push branch. -/
def pawnRes (tokens : List (List Char)) : List Char :=
  toSquare (getTok tokens 0) (getTok tokens 1) ++ pawnPromoOf tokens ++ sufOf tokens

/-- Guard of the pawn capture branch, including the non-empty square
    check the source performs before returning. -/
def capFire (tokens : List (List Char)) : Bool :=
  match takesIdxOf tokens with
  | some ti =>
    decide (4 ≤ tokens.length) && isFile (getTok tokens 0) &&
    isFile (getTok tokens (ti + 1)) && isRank (getTok tokens (ti + 2)) &&
    !(toSquare (getTok tokens (ti + 1)) (getTok tokens (ti + 2))).isEmpty
  | none => false

/-- Result of the pawn capture branch. -/
def capRes (tokens : List (List Char)) : List Char :=
  match takesIdxOf tokens with
  | some ti =>
    getTok tokens 0 ++ 'x' ::
      (toSquare (getTok tokens (ti + 1)) (getTok tokens (ti + 2)) ++
       (promoOf tokens ++ sufOf tokens))
  | none => []

/-- Index of the first piece word, modelling findIndex over pieceWords. -/
def pieceIdxOf (tokens : List (List Char)) : Option Nat :=
  tokens.findIdx? (fun t => (List.lookup t pieceWords).isSome)

/-- Letter of the first piece word found. -/
def pieceLetterOf (tokens : List (List Char)) : List Char :=
  match pieceIdxOf tokens with
  | some k => (List.lookup (getTok tokens k) pieceWords).getD []
  | none => []

/-- The destination loop of the piece branch: scan all adjacent index
    pairs, each match overwriting the previous destination. -/
def destLoop (tokens : List (List Char)) : List Char :=
  (List.range (tokens.length - 1)).foldl
    (fun d i =>
      if isFile (getTok tokens i) && isRank (getTok tokens (i + 1)) then
        toSquare (getTok tokens i) (getTok tokens (i + 1))
      else d) []

/-- The fallback branch: drop all whitespace, then keep only letters,
    digits and the characters plus, hash, equals, hyphen (the regex is
    case-insensitive, so uppercase letters are also kept). -/
def fallbackOf (cleaned : List Char) : List Char :=
  (cleaned.filter (fun c => !isWsC c)).filter
    (fun c => (w "abcdefghijklmnopqrstuvwxyz").contains c ||
              (w "ABCDEFGHIJKLMNOPQRSTUVWXYZ").contains c ||
              (w "0123456789").contains c ||
              (w "+#=-").contains c)

/-- The token-level part of sanFromSpeech, after the castling special
    cases: pawn push, pawn capture, piece move, fallback. -/
def sanToks (tokens : List (List Char)) (cleaned : List Char) : List Char :=
  if pawnGuard tokens then pawnRes tokens
  else if capFire tokens then capRes tokens
  else
    match pieceIdxOf tokens with
    | some _ =>
      let dest := destLoop tokens
      if dest.isEmpty then []
      else
        pieceLetterOf tokens ++
          (if (takesIdxOf tokens).isSome then w "x" else []) ++
          dest ++ promoOf tokens ++ sufOf tokens
    | none => fallbackOf cleaned

/-- sanFromSpeech at character level. -/
def sanChars (raw : List Char) : List Char :=
  if raw.isEmpty then []
  else
    let cleaned := clean raw
    match castleResult cleaned with
    | some s => s
    | none => sanToks (tokenize cleaned) cleaned

/-- sanFromSpeech from sanFromSpeech.js. -/
def sanFromSpeech (raw : String) : String :=
  ⟨sanChars raw.data⟩

/-! ## App.jsx: confirmation classifier -/

def yesWords : List (List Char) :=
  [w "confirm", w "yes", w "yeah", w "yep", w "ok", w "okay", w "go", w "do it", w "accept"]

def noWords : List (List Char) :=
  [w "cancel", w "no", w "nope", w "stop", w "reject", w "discard"]

def repWords : List (List Char) :=
  [w "repeat", w "say again", w "again", w "what", w "pardon"]

/-- interpretConfirmCommand at character level: lowercase, then bare
    substring scans of the three word lists in order. -/
def interpretCC (raw : List Char) : String :=
  let t := raw.map lowerChar
  if yesWords.any (fun x => containsSub t x) then "CONFIRM"
  else if noWords.any (fun x => containsSub t x) then "CANCEL"
  else if repWords.any (fun x => containsSub t x) then "REPEAT"
  else "UNKNOWN"

/-- interpretConfirmCommand from App.jsx. -/
def interpretConfirmCommand (raw : String) : String :=
  interpretCC raw.data

/-! ## App.jsx: dialogue controller

The React component state that the claims talk about: the mode (the
source values are the strings MOVE and CONFIRM), the pending SAN, the
engine busy flag, the SAN move list, and the status line.  Each event
handler of the component becomes a function from state to new state
paired with its externally observable effects.  -/

inductive Mode
  | MOVE
  | CONFIRM
deriving DecidableEq

structure DState where
  mode : Mode
  pendingSan : String
  busy : Bool
  movesList : List String
  status : String
deriving DecidableEq

/-- Externally observable effects of one event handler run: the texts
    spoken, whether a move or confirm listening session was requested,
    and whether an engine search was requested. -/
structure Effects where
  spoke : List String
  listenMove : Bool
  listenConfirm : Bool
  engineGo : Bool
deriving DecidableEq

def noEffects : Effects := ⟨[], false, false, false⟩

/-- Outcome of handing a SAN to the chess.js move application
    collaborator: rejection, or acceptance with the normalized SAN and
    the checkmate and draw signals read back from the board. -/
inductive MoveOutcome
  | illegal
  | legal (msan : String) (mate : Bool) (draw : Bool)
deriving DecidableEq

/-- startListeningForMove: gated on busy; resets mode and pending SAN
    and requests a listening session for a move utterance. -/
def startListeningForMove (s : DState) : DState × Effects :=
  if s.busy then (s, noEffects)
  else
    ({ s with mode := .MOVE, pendingSan := "", status := "Listening... Say your move." },
     { noEffects with listenMove := true })

/-- startListeningForConfirm entry: gated on busy; re-prompts and
    requests a listening session for a confirmation utterance. -/
def startListeningForConfirm (s : DState) : DState × Effects :=
  if s.busy then (s, noEffects)
  else
    ({ s with status := "Confirm: " ++ s.pendingSan ++ ". Say confirm or cancel." },
     { noEffects with listenConfirm := true })

/-- applyPlayerSan: gated on busy; hands the SAN to the collaborator.
    On rejection: back to MOVE with pending SAN cleared, illegal-move
    feedback, re-listen.  On acceptance ending the game: emit the
    game-over feedback and stop (mode and pending SAN untouched).  On
    acceptance otherwise: record the move, clear pending SAN, back to
    MOVE, then requestEngineMove sets busy and asks the engine. -/
def applyPlayerSan (s : DState) (san : String) (outcome : MoveOutcome) : DState × Effects :=
  if s.busy then (s, noEffects)
  else
    match outcome with
    | .illegal =>
      let s1 := { s with mode := .MOVE, pendingSan := "",
                         status := "Illegal move. Say a SAN move like: e4, Nf3, O-O." }
      let r := startListeningForMove s1
      (r.1, { r.2 with spoke := ["Illegal move. Please try again."] })
    | .legal msan mate draw =>
      let s1 := { s with movesList := s.movesList ++ [msan] }
      if mate then ({ s1 with status := "Checkmate." }, { noEffects with spoke := ["Checkmate."] })
      else if draw then ({ s1 with status := "Draw." }, { noEffects with spoke := ["Draw."] })
      else
        let s2 := { s1 with mode := .MOVE, pendingSan := "",
                            status := "You played: " ++ msan ++ ". Engine thinking...",
                            busy := true }
        ({ s2 with status := "Engine thinking..." },
         { noEffects with spoke := ["You played: " ++ msan ++ "."], engineGo := true })

/-- The onResult callback installed by startListeningForMove: interpret
    the transcript; empty interpretation re-prompts and re-listens,
    otherwise store the pending SAN, enter CONFIRM, and listen for the
    confirmation. -/
def handleMoveResult (s : DState) (raw : String) : DState × Effects :=
  let san := sanFromSpeech raw
  if san = "" then
    let s1 := { s with status := "Heard: " ++ raw ++ " (empty). Try again." }
    let r := startListeningForMove s1
    (r.1, { r.2 with spoke := ["I did not catch that. Please repeat."] })
  else
    let s1 := { s with mode := .CONFIRM, pendingSan := san,
                       status := "Heard: " ++ raw ++ " -> " ++ san ++ ". Say confirm or cancel." }
    let r := startListeningForConfirm s1
    (r.1, { r.2 with spoke := ["I heard " ++ san ++ ". Confirm or cancel."] })

/-- The onResult callback installed by startListeningForConfirm. -/
def handleConfirmResult (s : DState) (raw : String) (outcome : MoveOutcome) : DState × Effects :=
  let cmd := interpretConfirmCommand raw
  if cmd = "CONFIRM" then
    applyPlayerSan s s.pendingSan outcome
  else if cmd = "CANCEL" then
    let s1 := { s with mode := .MOVE, pendingSan := "", status := "Canceled. Say your move." }
    let r := startListeningForMove s1
    (r.1, { r.2 with spoke := ["Canceled. Say your move."] })
  else if cmd = "REPEAT" then
    let r := startListeningForConfirm s
    (r.1, { r.2 with spoke := ["I heard " ++ s.pendingSan ++ ". Confirm or cancel."] })
  else
    let maybeSan := sanFromSpeech raw
    if maybeSan ≠ "" then
      let s1 := { s with pendingSan := maybeSan,
                         status := "Heard a new move: " ++ maybeSan ++ ". Say confirm or cancel." }
      let r := startListeningForConfirm s1
      (r.1, { r.2 with spoke := ["I heard " ++ maybeSan ++ ". Confirm or cancel."] })
    else
      let r := startListeningForConfirm s
      (r.1, { r.2 with spoke := ["Please say confirm or cancel."] })

/-- The recognizer onerror callback: notify, reset to MOVE, clear the
    pending SAN, and request no new listening session. -/
def handleSpeechError (s : DState) : DState × Effects :=
  ({ s with mode := .MOVE, pendingSan := "", status := "Speech error. Click Start." },
   { noEffects with spoke := ["Speech error. Please click Start."] })

/-- newGame: fresh board and state, then listen for a move. -/
def newGame (_s : DState) : DState × Effects :=
  let s1 : DState := ⟨.MOVE, "", false, [], "New game. Say your move."⟩
  let r := startListeningForMove s1
  (r.1, { r.2 with spoke := ["New game. Your move."] })

/-- Reply of the engine worker: the no-moves sentinel, or a best move
    (none when chess.js rejected it) with the game-over signals. -/
inductive EngineReply
  | noMoves
  | best (m : Option String) (mate : Bool) (draw : Bool)
deriving DecidableEq

/-- The bestmove part of the worker onmessage handler. -/
def handleEngineBest (s : DState) (r : EngineReply) : DState × Effects :=
  match r with
  | .noMoves =>
    let s1 := { s with busy := false, status := "Engine has no moves." }
    let r1 := startListeningForMove s1
    (r1.1, { r1.2 with spoke := ["I have no moves."] })
  | .best m mate draw =>
    let s1 :=
      match m with
      | some msan =>
        { s with movesList := s.movesList ++ [msan],
                 status := "My move: " ++ msan ++ ". Your move." }
      | none => s
    let spoke1 := match m with
      | some msan => ["My move: " ++ msan ++ ". Your move."]
      | none => []
    let s2 := { s1 with busy := false }
    if mate then ({ s2 with status := "Checkmate." }, { noEffects with spoke := spoke1 ++ ["Checkmate."] })
    else if draw then ({ s2 with status := "Draw." }, { noEffects with spoke := spoke1 ++ ["Draw."] })
    else
      let r1 := startListeningForMove s2
      (r1.1, { r1.2 with spoke := spoke1 })

/-- The events delivered to the controller by the user buttons, the
    speech input collaborator, and the engine collaborator. -/
inductive Event
  | newGameEv
  | startButton
  | moveHeard (raw : String)
  | confirmHeard (raw : String) (outcome : MoveOutcome)
  | speechError
  | engineReply (r : EngineReply)

def stepE (s : DState) (e : Event) : DState × Effects :=
  match e with
  | .newGameEv => newGame s
  | .startButton => startListeningForMove s
  | .moveHeard raw => handleMoveResult s raw
  | .confirmHeard raw outcome => handleConfirmResult s raw outcome
  | .speechError => handleSpeechError s
  | .engineReply r => handleEngineBest s r

def dstep (s : DState) (e : Event) : DState := (stepE s e).1

/-- Initial component state, from the useState initializers. -/
def initState : DState := ⟨.MOVE, "", false, [], "Say your move (SAN)."⟩

/-- The dialogue invariant of the spec: the pending SAN is non-empty
    exactly in the confirmation state. -/
abbrev Inv (s : DState) : Prop := s.pendingSan ≠ "" ↔ s.mode = .CONFIRM

/-- Handler discipline: a confirmation transcript can only be delivered
    while the confirm handler is installed, which only happens in
    CONFIRM mode. -/
abbrev okEvent (s : DState) (e : Event) : Prop :=
  match e with
  | .confirmHeard _ _ => s.mode = .CONFIRM
  | _ => True

def fileStrs : List String := ["a", "b", "c", "d", "e", "f", "g", "h"]

def rankStrs : List String := ["1", "2", "3", "4", "5", "6", "7", "8"]

/-- The five values the promotion string can take. -/
def promoSet : List (List Char) := [[], w "=Q", w "=R", w "=B", w "=N"]

/-- The three values the check or mate suffix can take. -/
def sufSet : List (List Char) := [[], w "+", w "#"]

/-- The index of the LAST adjacent (file, rank) pair in the token
    sequence, characterized independently as the first match on the
    reversed index range. -/
def lastPairIdx (tokens : List (List Char)) : Option Nat :=
  (List.range (tokens.length - 1)).reverse.find?
    (fun i => isFile (getTok tokens i) && isRank (getTok tokens (i + 1)))

def toksOf (raw : String) : List (List Char) := tokenize (clean raw.data)

def isFileCh (c : Char) : Bool := (w "abcdefgh").contains c

def isRankCh (c : Char) : Bool := (w "12345678").contains c

def isPieceCh (c : Char) : Bool := (w "KQRBN").contains c

/-- Modelled from the spec: the data model calls a SAN String either a
    syntactically well-formed SAN token (examples e4, Nf3, dxe5, O-O) or
    the empty string.  Core move shapes: pawn destination, a capture
    with optional leading file or piece letter, or a piece move. -/
def sanCoreOK : List Char → Bool
  | [f, r] => isFileCh f && isRankCh r
  | [a, f, r] => isPieceCh a && isFileCh f && isRankCh r
  | [a, 'x', f, r] => (isFileCh a || isPieceCh a) && isFileCh f && isRankCh r
  | _ => false

def dropCheckSuffix (cs : List Char) : List Char :=
  match cs.reverse with
  | c :: rest => if c = '+' || c = '#' then rest.reverse else cs
  | [] => cs

def dropPromoSuffix (cs : List Char) : List Char :=
  match cs.reverse with
  | p :: '=' :: rest => if (w "QRBN").contains p then rest.reverse else cs
  | _ => cs

/-- Modelled from the spec: a syntactically well-formed SAN token is a
    castling token O-O or O-O-O, or a core move shape, each followed by
    an optional promotion piece and an optional check or mate marker. -/
def isWellFormedSanChars (cs : List Char) : Bool :=
  let b := dropCheckSuffix cs
  if b = w "O-O" || b = w "O-O-O" then true
  else sanCoreOK (dropPromoSuffix b)

def isWellFormedSAN (s : String) : Bool := isWellFormedSanChars s.data

def pieceLetterSet : List (List Char) := [w "N", w "B", w "R", w "Q", w "K"]

def xMarkSet : List (List Char) := [[], w "x"]

/-- The normalization pipeline of sanFromSpeech: clean the transcript,
    split on spaces, normalize each token, drop empty tokens. -/
def normalizePipeline (cs : List Char) : List (List Char) :=
  tokenize (clean cs)

/-- Normal form of an emitted token: non-empty, all characters lowercase
    alphanumeric, and not a spelled-out number word. -/
def goodTok (t : List Char) : Prop :=
  t ≠ [] ∧ (∀ c ∈ t, c ∈ lowerAlnum) ∧ List.lookup t numberWords = none

/-! ## Substring containment, in propositional form -/

/-- x occurs as a contiguous substring of t. -/
def SubStr (x t : List Char) : Prop := ∃ p q, t = p ++ x ++ q

/-- The lowercased transcript characters. -/
def lowerStr (raw : String) : List Char := raw.data.map lowerChar

theorem containsSub_iff (t x : List Char) : containsSub t x = true ↔ SubStr x t := by
  unfold containsSub SubStr
  simp only [List.any_eq_true, List.mem_tails, List.isPrefixOf_iff_prefix]
  constructor
  · rintro ⟨s, ⟨v, rfl⟩, u, rfl⟩
    exact ⟨v, u, by simp⟩
  · rintro ⟨p, q, rfl⟩
    exact ⟨x ++ q, ⟨p, by simp⟩, ⟨q, rfl⟩⟩

theorem anyWord_iff (ws : List (List Char)) (t : List Char) :
    ws.any (fun x => containsSub t x) = true ↔ ∃ x ∈ ws, SubStr x t := by
  simp [List.any_eq_true, containsSub_iff]

theorem interpretCC_ite (raw : String) :
    interpretConfirmCommand raw =
      (if yesWords.any (fun x => containsSub (lowerStr raw) x) then "CONFIRM"
       else if noWords.any (fun x => containsSub (lowerStr raw) x) then "CANCEL"
       else if repWords.any (fun x => containsSub (lowerStr raw) x) then "REPEAT"
       else "UNKNOWN") := rfl

/-- Claim C5: the confirmation classifier lowercases the transcript and
    scans the CONFIRM, CANCEL, REPEAT word lists in that order by bare
    substring containment, returning the first category with a match and
    UNKNOWN otherwise; in particular a transcript containing both a
    CONFIRM word and a CANCEL word resolves to CONFIRM. -/
theorem classifier_order_precedence (raw : String) :
    ((∃ x ∈ yesWords, SubStr x (lowerStr raw)) → interpretConfirmCommand raw = "CONFIRM") ∧
    ((¬ ∃ x ∈ yesWords, SubStr x (lowerStr raw)) →
       (∃ x ∈ noWords, SubStr x (lowerStr raw)) → interpretConfirmCommand raw = "CANCEL") ∧
    ((¬ ∃ x ∈ yesWords, SubStr x (lowerStr raw)) →
       (¬ ∃ x ∈ noWords, SubStr x (lowerStr raw)) →
       (∃ x ∈ repWords, SubStr x (lowerStr raw)) → interpretConfirmCommand raw = "REPEAT") ∧
    ((¬ ∃ x ∈ yesWords, SubStr x (lowerStr raw)) →
       (¬ ∃ x ∈ noWords, SubStr x (lowerStr raw)) →
       (¬ ∃ x ∈ repWords, SubStr x (lowerStr raw)) →
       interpretConfirmCommand raw = "UNKNOWN") ∧
    ((∃ x ∈ yesWords, SubStr x (lowerStr raw)) →
       (∃ x ∈ noWords, SubStr x (lowerStr raw)) → interpretConfirmCommand raw = "CONFIRM") := by
  rw [interpretCC_ite raw]
  by_cases hy : ∃ x ∈ yesWords, SubStr x (lowerStr raw)
  · rw [if_pos ((anyWord_iff _ _).2 hy)]
    exact ⟨fun _ => rfl, fun h => absurd hy h, fun h => absurd hy h, fun h => absurd hy h,
      fun _ _ => rfl⟩
  · rw [if_neg (fun hb => hy ((anyWord_iff _ _).1 hb))]
    by_cases hn : ∃ x ∈ noWords, SubStr x (lowerStr raw)
    · rw [if_pos ((anyWord_iff _ _).2 hn)]
      exact ⟨fun h => absurd h hy, fun _ _ => rfl, fun _ h => absurd hn h,
        fun _ h => absurd hn h, fun h => absurd h hy⟩
    · rw [if_neg (fun hb => hn ((anyWord_iff _ _).1 hb))]
      by_cases hr : ∃ x ∈ repWords, SubStr x (lowerStr raw)
      · rw [if_pos ((anyWord_iff _ _).2 hr)]
        exact ⟨fun h => absurd h hy, fun _ h => absurd h hn, fun _ _ _ => rfl,
          fun _ _ h => absurd hr h, fun h => absurd h hy⟩
      · rw [if_neg (fun hb => hr ((anyWord_iff _ _).1 hb))]
        exact ⟨fun h => absurd h hy, fun _ h => absurd h hn, fun _ _ h => absurd h hr,
          fun _ _ _ => rfl, fun h => absurd h hy⟩

/-- Witness for C5: the transcript containing both the CONFIRM word go
    and the CANCEL word no classifies as CONFIRM. -/
theorem classifier_order_precedence_w : interpretConfirmCommand "no go" = "CONFIRM" :=
  (classifier_order_precedence "no go").2.2.2.2
    ⟨w "go", by decide, ⟨w "no ", [], by decide⟩⟩
    ⟨w "no", by decide, ⟨[], w " go", by decide⟩⟩

/-- Claim C10: the CONFIRM word list is matched by bare substring
    containment, so any lowercased transcript containing go or ok
    anywhere, even inside a longer word and even alongside a CANCEL
    word, classifies as CONFIRM. -/
theorem confirm_matches_inside_words (raw : String)
    (h : SubStr (w "go") (lowerStr raw) ∨ SubStr (w "ok") (lowerStr raw)) :
    interpretConfirmCommand raw = "CONFIRM" := by
  rw [interpretCC_ite raw]
  rcases h with h | h
  · rw [if_pos ((anyWord_iff _ _).2 ⟨w "go", by decide, h⟩)]
  · rw [if_pos ((anyWord_iff _ _).2 ⟨w "ok", by decide, h⟩)]

/-- Witness for C10: broken contains ok, hence CONFIRM. -/
theorem confirm_matches_inside_words_w : interpretConfirmCommand "broken" = "CONFIRM" :=
  confirm_matches_inside_words "broken" (Or.inr ⟨w "br", w "en", by decide⟩)

/-! ## Pawn push identity (C4) -/

/-- Claim C4: for every file letter f and rank digit r, interpreting the
    normalized two token transcript f-space-r yields exactly the
    concatenation f and r, with no prefix or suffix added. -/
theorem pawn_push_identity (f r : String) (hf : f ∈ fileStrs) (hr : r ∈ rankStrs) :
    sanFromSpeech (f ++ " " ++ r) = f ++ r := by
  fin_cases hf <;> fin_cases hr <;> decide

/-- Witness for C4 at e and 4. -/
theorem pawn_push_identity_w : sanFromSpeech ("e" ++ " " ++ "4") = "e" ++ "4" :=
  pawn_push_identity "e" "4" (by decide) (by decide)

/-! ## Dialogue controller claims (C1, C2, C7) -/

theorem slfm_inv (s : DState) (h : Inv s) : Inv (startListeningForMove s).1 := by
  unfold startListeningForMove
  split
  · exact h
  · simp [Inv]

theorem slfc_inv (s : DState) (h : Inv s) : Inv (startListeningForConfirm s).1 := by
  unfold startListeningForConfirm
  split
  · exact h
  · exact h

/-- Claim C1: the dialogue invariant, pending SAN non-empty exactly in
    the confirmation state, holds initially and is preserved by every
    transition of the controller (the confirm transcript event is only
    deliverable while the confirm handler is installed, hence in
    CONFIRM mode). -/
theorem dialogue_invariant :
    Inv initState ∧ ∀ (s : DState) (e : Event), Inv s → okEvent s e → Inv (dstep s e) := by
  constructor
  · simp [Inv, initState]
  · intro s e hInv hok
    cases e with
    | newGameEv =>
      exact slfm_inv _ (by simp [Inv])
    | startButton =>
      exact slfm_inv _ hInv
    | moveHeard raw =>
      show Inv (handleMoveResult s raw).1
      unfold handleMoveResult
      by_cases h : sanFromSpeech raw = ""
      · simp only [h, if_pos rfl]
        exact slfm_inv _ hInv
      · rw [if_neg h]
        exact slfc_inv _ (by simp [Inv, h])
    | confirmHeard raw outcome =>
      have hmode : s.mode = .CONFIRM := hok
      show Inv (handleConfirmResult s raw outcome).1
      unfold handleConfirmResult
      dsimp only
      split
      · -- CONFIRM: applyPlayerSan
        unfold applyPlayerSan
        split
        · exact hInv
        · match outcome with
          | .illegal => exact slfm_inv _ (by simp [Inv])
          | .legal msan mate draw =>
            dsimp only
            split
            · exact hInv
            · split
              · exact hInv
              · simp [Inv]
      · split
        · -- CANCEL
          exact slfm_inv _ (by simp [Inv])
        · split
          · -- REPEAT
            exact slfc_inv _ hInv
          · -- UNKNOWN
            split
            · next hms =>
              exact slfc_inv _ (by simp [Inv, hmode, hms])
            · exact slfc_inv _ hInv
    | speechError =>
      simp [dstep, stepE, handleSpeechError, Inv]
    | engineReply r =>
      show Inv (handleEngineBest s r).1
      match r with
      | .noMoves => exact slfm_inv _ hInv
      | .best m mate draw =>
        match m with
        | some msan =>
          show Inv (handleEngineBest s (.best (some msan) mate draw)).1
          unfold handleEngineBest
          dsimp only
          split
          · exact hInv
          · split
            · exact hInv
            · exact slfm_inv _ hInv
        | none =>
          show Inv (handleEngineBest s (.best none mate draw)).1
          unfold handleEngineBest
          dsimp only
          split
          · exact hInv
          · split
            · exact hInv
            · exact slfm_inv _ hInv

/-- Witness for C1: the invariant holds initially and after a speech
    error from the initial state. -/
theorem dialogue_invariant_w : Inv (dstep initState .speechError) :=
  dialogue_invariant.2 initState .speechError dialogue_invariant.1 trivial

/-- Claim C7: a speech input error resets the controller to MOVE with
    the pending SAN cleared and notifies the user without requesting a
    new listening session, whereas an unrecognized utterance in the
    move phase does auto-retry the listening session. -/
theorem speech_error_no_retry :
    (∀ s : DState,
      dstep s .speechError =
        { s with mode := .MOVE, pendingSan := "", status := "Speech error. Click Start." } ∧
      (stepE s .speechError).2 =
        { noEffects with spoke := ["Speech error. Please click Start."] }) ∧
    (∀ (s : DState) (raw : String), s.busy = false → sanFromSpeech raw = "" →
      (stepE s (.moveHeard raw)).2.listenMove = true ∧
      (stepE s (.moveHeard raw)).2.listenConfirm = false ∧
      (dstep s (.moveHeard raw)).mode = .MOVE ∧
      (dstep s (.moveHeard raw)).pendingSan = "") := by
  constructor
  · intro s
    exact ⟨rfl, rfl⟩
  · intro s raw hb he
    simp [dstep, stepE, handleMoveResult, he, startListeningForMove, hb, noEffects]

/-- Witness for C7: from the initial state, an unrecognizable transcript
    re-requests the listening session and stays in MOVE. -/
theorem speech_error_no_retry_w :
    (stepE initState (.moveHeard ".")).2.listenMove = true ∧
    (dstep initState (.moveHeard ".")).mode = .MOVE := by
  have h := speech_error_no_retry.2 initState "." rfl (by decide)
  exact ⟨h.1, h.2.2.1⟩

/-- Counterexample for C2: in the confirmation state with pending SAN
    e4 and the collaborator applying the move successfully while
    signaling game over, the pending SAN is NOT cleared and the mode
    stays CONFIRM, contradicting the claim that a successful
    application clears the pending SAN. -/
theorem confirm_gameover_counterexample :
    interpretConfirmCommand "yes" = "CONFIRM" ∧
    (dstep ⟨.CONFIRM, "e4", false, [], ""⟩
        (.confirmHeard "yes" (.legal "e4" true false))).pendingSan = "e4" ∧
    (dstep ⟨.CONFIRM, "e4", false, [], ""⟩
        (.confirmHeard "yes" (.legal "e4" true false))).mode = .CONFIRM ∧
    ("e4" : String) ≠ "" := by
  refine ⟨by decide, rfl, rfl, by decide⟩

/-- Claim C2 as amended: on a CONFIRM verdict the pending SAN is handed
    to the move application collaborator; on rejection the controller
    returns to MOVE with the pending SAN discarded, emits illegal-move
    feedback and re-listens; on success without game over it clears the
    pending SAN, returns to MOVE and requests the engine; on success
    with game over it emits the game-over feedback and halts, leaving
    mode and pending SAN untouched. -/
theorem confirm_apply_amended (s : DState) (raw : String) (outcome : MoveOutcome)
    (hb : s.busy = false) (hc : interpretConfirmCommand raw = "CONFIRM") :
    (outcome = .illegal →
       (dstep s (.confirmHeard raw outcome)).mode = .MOVE ∧
       (dstep s (.confirmHeard raw outcome)).pendingSan = "" ∧
       (stepE s (.confirmHeard raw outcome)).2.spoke = ["Illegal move. Please try again."] ∧
       (stepE s (.confirmHeard raw outcome)).2.listenMove = true) ∧
    (∀ msan, outcome = .legal msan false false →
       (dstep s (.confirmHeard raw outcome)).mode = .MOVE ∧
       (dstep s (.confirmHeard raw outcome)).pendingSan = "" ∧
       (dstep s (.confirmHeard raw outcome)).busy = true ∧
       (stepE s (.confirmHeard raw outcome)).2.engineGo = true ∧
       (stepE s (.confirmHeard raw outcome)).2.spoke = ["You played: " ++ msan ++ "."]) ∧
    (∀ msan mate draw, outcome = .legal msan mate draw → (mate = true ∨ draw = true) →
       (dstep s (.confirmHeard raw outcome)).mode = s.mode ∧
       (dstep s (.confirmHeard raw outcome)).pendingSan = s.pendingSan ∧
       (stepE s (.confirmHeard raw outcome)).2.listenMove = false ∧
       (stepE s (.confirmHeard raw outcome)).2.listenConfirm = false ∧
       (stepE s (.confirmHeard raw outcome)).2.engineGo = false) := by
  refine ⟨?_, ?_, ?_⟩
  · rintro rfl
    simp [dstep, stepE, handleConfirmResult, hc, applyPlayerSan, hb,
      startListeningForMove, noEffects]
  · rintro msan rfl
    simp [dstep, stepE, handleConfirmResult, hc, applyPlayerSan, hb, noEffects]
  · rintro msan mate draw rfl hgo
    rcases hgo with hm | hd
    · subst hm
      simp [dstep, stepE, handleConfirmResult, hc, applyPlayerSan, hb, noEffects]
    · subst hd
      by_cases hm : mate = true
      · subst hm
        simp [dstep, stepE, handleConfirmResult, hc, applyPlayerSan, hb, noEffects]
      · replace hm : mate = false := by
          cases mate
          · rfl
          · exact absurd rfl hm
        subst hm
        simp [dstep, stepE, handleConfirmResult, hc, applyPlayerSan, hb, noEffects]

/-- Witness for C2 as amended: a rejected pending SAN is discarded and
    the controller returns to MOVE. -/
theorem confirm_apply_amended_w :
    (dstep ⟨.CONFIRM, "Nf3", false, [], ""⟩ (.confirmHeard "okay" .illegal)).mode = .MOVE ∧
    (dstep ⟨.CONFIRM, "Nf3", false, [], ""⟩ (.confirmHeard "okay" .illegal)).pendingSan = "" := by
  have h := (confirm_apply_amended ⟨.CONFIRM, "Nf3", false, [], ""⟩ "okay" .illegal rfl
    (by decide)).1 rfl
  exact ⟨h.1, h.2.1⟩

/-! ## Shape lemmas for the interpreter -/

theorem isFile_shape (t : List Char) (h : isFile t = true) :
    ∃ c, t = [c] ∧ (w "abcdefgh").contains c = true := by
  cases t with
  | nil => simp [isFile] at h
  | cons c cs =>
    cases cs with
    | nil => exact ⟨c, rfl, h⟩
    | cons d ds => simp [isFile] at h

theorem isRank_shape (t : List Char) (h : isRank t = true) :
    ∃ c, t = [c] ∧ (w "12345678").contains c = true := by
  cases t with
  | nil => simp [isRank] at h
  | cons c cs =>
    cases cs with
    | nil => exact ⟨c, rfl, h⟩
    | cons d ds => simp [isRank] at h

/-- A fold whose step either keeps the accumulator or replaces it
    preserves any predicate that holds of the start and of every
    replacement. -/
theorem foldl_pres {α β : Type} (P : β → Prop) (f : β → α → β) (l : List α) (b : β)
    (hb : P b) (hf : ∀ b a, P b → P (f b a)) : P (l.foldl f b) := by
  induction l generalizing b with
  | nil => exact hb
  | cons a l ih => exact ih (f b a) (hf b a hb)

theorem promo_lookup_mem (k p : List Char) (h : List.lookup k promoWords = some p) :
    p = w "Q" ∨ p = w "R" ∨ p = w "B" ∨ p = w "N" := by
  unfold promoWords at h
  simp only [List.lookup] at h
  repeat' split at h
  all_goals simp_all

theorem piece_lookup_mem (k p : List Char) (h : List.lookup k pieceWords = some p) :
    p = w "N" ∨ p = w "B" ∨ p = w "R" ∨ p = w "Q" ∨ p = w "K" := by
  unfold pieceWords at h
  simp only [List.lookup] at h
  repeat' split at h
  all_goals simp_all

theorem promoScanWindow_mem (tokens : List (List Char)) (i : Nat) (acc : List Char)
    (hacc : acc ∈ promoSet) : promoScanWindow tokens i acc ∈ promoSet := by
  unfold promoScanWindow
  apply foldl_pres (fun b => b ∈ promoSet) _ _ _ hacc
  intro b a hb
  cases h : List.lookup (getTok tokens a) promoWords with
  | none => exact hb
  | some p =>
    dsimp only [Option.getD]
    rcases promo_lookup_mem _ _ h with hp | hp | hp | hp <;> subst hp <;> decide

theorem promoOf_mem (tokens : List (List Char)) : promoOf tokens ∈ promoSet := by
  unfold promoOf
  apply foldl_pres (fun b => b ∈ promoSet) _ _ _ (by simp [promoSet])
  intro b a hb
  split
  · exact promoScanWindow_mem tokens a b hb
  · exact hb

theorem pawnPromoOf_mem (tokens : List (List Char)) : pawnPromoOf tokens ∈ promoSet := by
  unfold pawnPromoOf
  dsimp only
  split
  · next hcond =>
    cases h : List.lookup (getTok tokens 2) promoWords with
    | none =>
      rw [h] at hcond
      simp at hcond
    | some p =>
      dsimp only [Option.getD]
      rcases promo_lookup_mem _ _ h with hp | hp | hp | hp <;> subst hp <;> decide
  · exact promoOf_mem tokens

theorem sufOf_mem (tokens : List (List Char)) : sufOf tokens ∈ sufSet := by
  unfold sufOf
  split
  · simp [sufSet]
  · split <;> simp [sufSet]

/-! ## C9: the pawn push shape shadows capture words and later pairs -/

/-- Claim C9: whenever the first token is a file letter and the second a
    rank digit, the interpreter takes the pawn push branch, whose result
    is built from those two tokens plus the promotion and check or mate
    keywords only; a capture keyword and any later (file, rank) pair are
    ignored, and no capture marker x ever appears in the result. -/
theorem pawn_shape_shadows_capture (t0 t1 : List Char) (rest : List (List Char))
    (cleaned : List Char) (h0 : isFile t0 = true) (h1 : isRank t1 = true) :
    sanToks (t0 :: t1 :: rest) cleaned =
      t0 ++ t1 ++ pawnPromoOf (t0 :: t1 :: rest) ++ sufOf (t0 :: t1 :: rest) ∧
    'x' ∉ sanToks (t0 :: t1 :: rest) cleaned := by
  have hg : pawnGuard (t0 :: t1 :: rest) = true := by
    simp [pawnGuard, getTok, h0, h1]
  have heq : sanToks (t0 :: t1 :: rest) cleaned =
      t0 ++ t1 ++ pawnPromoOf (t0 :: t1 :: rest) ++ sufOf (t0 :: t1 :: rest) := by
    unfold sanToks
    rw [if_pos hg]
    unfold pawnRes
    simp [toSquare, getTok, h0, h1]
  refine ⟨heq, ?_⟩
  rw [heq]
  obtain ⟨c0, rfl, hc0⟩ := isFile_shape t0 h0
  obtain ⟨c1, rfl, hc1⟩ := isRank_shape t1 h1
  have hx0 : c0 ≠ 'x' := fun h => absurd (h ▸ hc0) (by decide)
  have hx1 : c1 ≠ 'x' := fun h => absurd (h ▸ hc1) (by decide)
  have hxp : 'x' ∉ pawnPromoOf ([c0] :: [c1] :: rest) := by
    have h5 := pawnPromoOf_mem ([c0] :: [c1] :: rest)
    simp only [promoSet, List.mem_cons, List.not_mem_nil, or_false] at h5
    rcases h5 with h5 | h5 | h5 | h5 | h5 <;> rw [h5] <;> decide
  have hxs : 'x' ∉ sufOf ([c0] :: [c1] :: rest) := by
    have h5 := sufOf_mem ([c0] :: [c1] :: rest)
    simp only [sufSet, List.mem_cons, List.not_mem_nil, or_false] at h5
    rcases h5 with h5 | h5 | h5 <;> rw [h5] <;> decide
  intro hmem
  rcases List.mem_append.1 hmem with h1 | h1
  · rcases List.mem_append.1 h1 with h2 | h2
    · rcases List.mem_append.1 h2 with h3 | h3
      · have h4 : 'x' = c0 := by simpa using h3
        exact hx0 h4.symm
      · have h4 : 'x' = c1 := by simpa using h3
        exact hx1 h4.symm
    · exact hxp h2
  · exact hxs h1

/-- Witness for C9: the token sequence e, 4, takes, d, 5 interprets as
    the bare pawn push e4, the capture word and the later pair silently
    ignored. -/
theorem pawn_shape_shadows_capture_w :
    sanToks [w "e", w "4", w "takes", w "d", w "5"] [] = w "e4" ∧
    'x' ∉ sanToks [w "e", w "4", w "takes", w "d", w "5"] [] := by
  have h := pawn_shape_shadows_capture (w "e") (w "4") [w "takes", w "d", w "5"] []
    (by decide) (by decide)
  refine ⟨?_, h.2⟩
  rw [h.1]
  decide

/-! ## C6: the piece branch uses the LAST adjacent (file, rank) pair -/

/-- A fold that overwrites its accumulator at every index satisfying p
    computes the value at the last such index. -/
theorem foldl_overwrite_last (is : List Nat) (d : List Char) (p : Nat → Bool)
    (q : Nat → List Char) :
    is.foldl (fun acc i => if p i then q i else acc) d =
      (match is.reverse.find? p with
       | some i => q i
       | none => d) := by
  induction is generalizing d with
  | nil => rfl
  | cons i is ih =>
    rw [List.foldl_cons, ih, List.reverse_cons, List.find?_append]
    cases h : is.reverse.find? p with
    | some j => simp [h]
    | none =>
      cases hp : p i <;> simp [h, hp, List.find?]

theorem destLoop_eq (tokens : List (List Char)) :
    destLoop tokens =
      (match lastPairIdx tokens with
       | some i => getTok tokens i ++ getTok tokens (i + 1)
       | none => []) := by
  unfold destLoop lastPairIdx
  rw [foldl_overwrite_last]
  cases h : (List.range (tokens.length - 1)).reverse.find?
      (fun i => isFile (getTok tokens i) && isRank (getTok tokens (i + 1))) with
  | none => rfl
  | some i =>
    have hp := List.find?_some h
    simp only [Bool.and_eq_true] at hp
    simp [toSquare, hp.1, hp.2]

/-- Claim C6: when a piece word is present and the castling, pawn push
    and pawn capture shapes did not match, the destination is the LAST
    adjacent (file, rank) pair anywhere in the token sequence; with no
    such pair the interpreter returns the empty string, else piece
    letter, optional x, destination, promotion, check or mate suffix. -/
theorem piece_branch_last_pair (raw : String)
    (hcast : castleResult (clean raw.data) = none)
    (hpawn : pawnGuard (toksOf raw) = false)
    (hcap : capFire (toksOf raw) = false)
    (hpc : (pieceIdxOf (toksOf raw)).isSome = true) :
    sanFromSpeech raw =
      ⟨(match lastPairIdx (toksOf raw) with
        | some i =>
          pieceLetterOf (toksOf raw) ++
            (if (takesIdxOf (toksOf raw)).isSome then w "x" else []) ++
            (getTok (toksOf raw) i ++ getTok (toksOf raw) (i + 1)) ++
            promoOf (toksOf raw) ++ sufOf (toksOf raw)
        | none => [])⟩ := by
  have hdata : raw.data.isEmpty = false := by
    cases hd : raw.data.isEmpty
    · rfl
    · exfalso
      rw [List.isEmpty_iff] at hd
      rw [toksOf, hd] at hpc
      exact absurd hpc (by decide)
  unfold sanFromSpeech sanChars
  rw [hdata]
  simp only [Bool.false_eq_true, if_false, hcast]
  apply congrArg String.mk
  show sanToks (toksOf raw) (clean raw.data) = _
  unfold sanToks
  rw [hpawn, hcap]
  simp only [Bool.false_eq_true, if_false]
  obtain ⟨k, hk⟩ := Option.isSome_iff_exists.1 hpc
  rw [hk]
  simp only
  rw [destLoop_eq]
  cases hlp : lastPairIdx (toksOf raw) with
  | none => simp
  | some i =>
    have hp := List.find?_some hlp
    simp only [Bool.and_eq_true] at hp
    obtain ⟨cf, hcf, _⟩ := isFile_shape _ hp.1
    simp only
    rw [if_neg (by simp [hcf])]

/-- Witness for C6: knight f three takes the piece branch and yields
    Nf3 from the last (and only) file and rank pair. -/
theorem piece_branch_last_pair_w : sanFromSpeech "knight f three" = "Nf3" := by
  have h := piece_branch_last_pair "knight f three" (by decide) (by decide)
    (by decide) (by decide)
  rw [h]
  decide

/-! ## C3: well-formedness of interpreter output -/

/-- Counterexample for C3: the fallback branch passes the transcript
    zebra through unchanged, a non-empty output that is not well-formed
    SAN. -/
theorem san_wf_counterexample :
    sanFromSpeech "zebra" = "zebra" ∧ ("zebra" : String) ≠ "" ∧
      isWellFormedSAN "zebra" = false := by
  refine ⟨by decide, by decide, by decide⟩

theorem pawnWFall :
    ((w "abcdefgh").all fun f => (w "12345678").all fun r =>
      promoSet.all fun p => sufSet.all fun sf =>
        isWellFormedSanChars (([f] ++ [r]) ++ p ++ sf)) = true := by decide

theorem capWFall :
    ((w "abcdefgh").all fun f => (w "abcdefgh").all fun g =>
      (w "12345678").all fun r => promoSet.all fun p => sufSet.all fun sf =>
        isWellFormedSanChars ([f] ++ 'x' :: (([g] ++ [r]) ++ (p ++ sf)))) = true := by decide

theorem pieceWFall :
    (pieceLetterSet.all fun P => xMarkSet.all fun xs =>
      (w "abcdefgh").all fun f => (w "12345678").all fun r =>
        promoSet.all fun p => sufSet.all fun sf =>
          isWellFormedSanChars (P ++ xs ++ ([f] ++ [r]) ++ p ++ sf)) = true := by decide

theorem pawnWF (f r : Char) (p sf : List Char)
    (hf : f ∈ w "abcdefgh") (hr : r ∈ w "12345678")
    (hp : p ∈ promoSet) (hsf : sf ∈ sufSet) :
    isWellFormedSanChars (([f] ++ [r]) ++ p ++ sf) = true := by
  have h := pawnWFall
  simp only [List.all_eq_true] at h
  exact h f hf r hr p hp sf hsf

theorem capWF (f g r : Char) (p sf : List Char)
    (hf : f ∈ w "abcdefgh") (hg : g ∈ w "abcdefgh") (hr : r ∈ w "12345678")
    (hp : p ∈ promoSet) (hsf : sf ∈ sufSet) :
    isWellFormedSanChars ([f] ++ 'x' :: (([g] ++ [r]) ++ (p ++ sf))) = true := by
  have h := capWFall
  simp only [List.all_eq_true] at h
  exact h f hf g hg r hr p hp sf hsf

theorem pieceWF (P xs : List Char) (f r : Char) (p sf : List Char)
    (hP : P ∈ pieceLetterSet) (hxs : xs ∈ xMarkSet)
    (hf : f ∈ w "abcdefgh") (hr : r ∈ w "12345678")
    (hp : p ∈ promoSet) (hsf : sf ∈ sufSet) :
    isWellFormedSanChars (P ++ xs ++ ([f] ++ [r]) ++ p ++ sf) = true := by
  have h := pieceWFall
  simp only [List.all_eq_true] at h
  exact h P hP xs hxs f hf r hr p hp sf hsf

theorem castle_mem (cleaned s : List Char) (h : castleResult cleaned = some s) :
    s = w "O-O" ∨ s = w "O-O-O" := by
  unfold castleResult at h
  split at h
  · exact Or.inl (Option.some.inj h).symm
  · split at h
    · exact Or.inr (Option.some.inj h).symm
    · split at h
      · exact Or.inl (Option.some.inj h).symm
      · split at h
        · exact Or.inr (Option.some.inj h).symm
        · exact absurd h (by simp)

theorem destLoop_shape (tokens : List (List Char)) :
    destLoop tokens = [] ∨
      ∃ f r, destLoop tokens = [f] ++ [r] ∧ f ∈ w "abcdefgh" ∧ r ∈ w "12345678" := by
  rw [destLoop_eq]
  cases h : lastPairIdx tokens with
  | none => exact Or.inl rfl
  | some i =>
    have hp := List.find?_some h
    simp only [Bool.and_eq_true] at hp
    obtain ⟨cf, hf1, hf2⟩ := isFile_shape _ hp.1
    obtain ⟨cr, hr1, hr2⟩ := isRank_shape _ hp.2
    refine Or.inr ⟨cf, cr, ?_, List.elem_iff.1 hf2, List.elem_iff.1 hr2⟩
    dsimp only
    rw [hf1, hr1]

theorem pieceLetterOf_mem (tokens : List (List Char))
    (h : (pieceIdxOf tokens).isSome = true) : pieceLetterOf tokens ∈ pieceLetterSet := by
  obtain ⟨k, hk⟩ := Option.isSome_iff_exists.1 h
  unfold pieceLetterOf
  rw [hk]
  dsimp only
  have hk2 := hk
  unfold pieceIdxOf at hk2
  obtain ⟨hlt, hpk, -⟩ := List.findIdx?_eq_some_iff_getElem.1 hk2
  have hg : getTok tokens k = tokens[k] := by
    simp [getTok, List.getD_eq_getElem?_getD, List.getElem?_eq_getElem hlt]
  rw [hg]
  cases hl : List.lookup tokens[k] pieceWords with
  | none => rw [hl] at hpk; simp at hpk
  | some p =>
    dsimp only [Option.getD]
    rcases piece_lookup_mem _ _ hl with h2 | h2 | h2 | h2 | h2 <;> subst h2 <;> decide

theorem sanChars_cases (cs : List Char) :
    sanChars cs = [] ∨ isWellFormedSanChars (sanChars cs) = true ∨
      sanChars cs = fallbackOf (clean cs) := by
  unfold sanChars
  by_cases hd : cs.isEmpty = true
  · rw [if_pos hd]
    exact Or.inl rfl
  · rw [if_neg hd]
    dsimp only
    cases hc : castleResult (clean cs) with
    | some s =>
      right; left
      dsimp only
      rcases castle_mem _ _ hc with rfl | rfl <;> decide
    | none =>
      dsimp only
      unfold sanToks
      by_cases hp : pawnGuard (tokenize (clean cs)) = true
      · right; left
        rw [if_pos hp]
        have hp2 := hp
        unfold pawnGuard at hp2
        simp only [Bool.and_eq_true] at hp2
        obtain ⟨⟨-, hf⟩, hr⟩ := hp2
        unfold pawnRes
        obtain ⟨cf, hcf, hcf2⟩ := isFile_shape _ hf
        obtain ⟨cr, hcr, hcr2⟩ := isRank_shape _ hr
        unfold toSquare
        rw [if_pos (by rw [hf, hr]; rfl), hcf, hcr]
        exact pawnWF cf cr _ _ (List.elem_iff.1 hcf2) (List.elem_iff.1 hcr2)
          (pawnPromoOf_mem _) (sufOf_mem _)
      · rw [if_neg hp]
        by_cases hcap : capFire (tokenize (clean cs)) = true
        · right; left
          rw [if_pos hcap]
          have hcap2 := hcap
          unfold capFire at hcap2
          cases ht : takesIdxOf (tokenize (clean cs)) with
          | none => rw [ht] at hcap2; simp at hcap2
          | some ti =>
            rw [ht] at hcap2
            simp only [Bool.and_eq_true] at hcap2
            obtain ⟨⟨⟨⟨-, hf0⟩, hf1⟩, hr2⟩, -⟩ := hcap2
            unfold capRes
            rw [ht]
            dsimp only
            obtain ⟨c0, hc0, hc0m⟩ := isFile_shape _ hf0
            obtain ⟨cg, hcg, hcgm⟩ := isFile_shape _ hf1
            obtain ⟨cr, hcr, hcrm⟩ := isRank_shape _ hr2
            unfold toSquare
            rw [if_pos (by rw [hf1, hr2]; rfl), hc0, hcg, hcr]
            exact capWF c0 cg cr _ _ (List.elem_iff.1 hc0m) (List.elem_iff.1 hcgm)
              (List.elem_iff.1 hcrm) (promoOf_mem _) (sufOf_mem _)
        · rw [if_neg hcap]
          cases hpi : pieceIdxOf (tokenize (clean cs)) with
          | none => exact Or.inr (Or.inr rfl)
          | some k =>
            dsimp only
            rcases destLoop_shape (tokenize (clean cs)) with hdl | ⟨f, r, hdl, hfm, hrm⟩
            · left
              rw [hdl]
              simp
            · right; left
              rw [hdl]
              rw [if_neg (by simp)]
              have hsome : (pieceIdxOf (tokenize (clean cs))).isSome = true := by
                rw [hpi]; rfl
              refine pieceWF _ _ f r _ _ (pieceLetterOf_mem _ hsome) ?_ hfm hrm
                (promoOf_mem _) (sufOf_mem _)
              cases (takesIdxOf (tokenize (clean cs))).isSome <;> simp [xMarkSet]

/-- Claim C3 as amended: every output of the structured shapes of the
    interpreter (castling, pawn push, pawn capture, piece move) is
    either empty or a well-formed SAN token; the fallback branch,
    however, returns the cleaned residue verbatim, which can be an
    arbitrary non-SAN string such as zebra. -/
theorem san_wf_amended (raw : String) :
    sanFromSpeech raw = "" ∨ isWellFormedSAN (sanFromSpeech raw) = true ∨
      sanFromSpeech raw = ⟨fallbackOf (clean raw.data)⟩ := by
  rcases sanChars_cases raw.data with h | h | h
  · left
    show String.mk (sanChars raw.data) = ""
    rw [h]
  · right; left
    exact h
  · right; right
    exact congrArg String.mk h

/-! ## C8: idempotence of the phrase normalizer -/

theorem num_lookup_mem (k d : List Char) (h : List.lookup k numberWords = some d) :
    d ∈ [w "1", w "2", w "3", w "4", w "5", w "6", w "7", w "8"] := by
  unfold numberWords at h
  simp only [List.lookup] at h
  repeat' split at h
  all_goals simp_all

theorem stripNonAlnum_chars (u : List Char) : ∀ c ∈ stripNonAlnum u, c ∈ lowerAlnum := by
  intro c hc
  have := List.mem_filter.1 hc
  exact List.elem_iff.1 this.2

theorem normToken_chars (u : List Char) : ∀ c ∈ normToken u, c ∈ lowerAlnum := by
  unfold normToken
  dsimp only
  cases h : List.lookup (stripNonAlnum (trimC (u.map lowerChar))) numberWords with
  | some d =>
    have hd := num_lookup_mem _ _ h
    have hall : ∀ x ∈ [w "1", w "2", w "3", w "4", w "5", w "6", w "7", w "8"],
        ∀ c ∈ x, c ∈ lowerAlnum := by decide
    intro c hc
    exact hall d hd c hc
  | none =>
    exact stripNonAlnum_chars _

theorem normToken_lookup_none (u : List Char) :
    List.lookup (normToken u) numberWords = none := by
  unfold normToken
  dsimp only
  cases h : List.lookup (stripNonAlnum (trimC (u.map lowerChar))) numberWords with
  | some d =>
    have hd := num_lookup_mem _ _ h
    have hall : ∀ x ∈ [w "1", w "2", w "3", w "4", w "5", w "6", w "7", w "8"],
        List.lookup x numberWords = none := by decide
    exact hall d hd
  | none =>
    exact h

theorem tokenize_good (cs : List Char) : ∀ t ∈ tokenize cs, goodTok t := by
  intro t ht
  unfold tokenize at ht
  have h1 := List.mem_filter.1 ht
  obtain ⟨u, -, hu⟩ := List.mem_map.1 h1.1
  have hne : t ≠ [] := by
    intro he
    rw [he] at h1
    simp at h1
  subst hu
  exact ⟨hne, normToken_chars u, normToken_lookup_none u⟩

theorem lowerAlnum_not_ws : ∀ c ∈ lowerAlnum, isWsC c = false := by decide

theorem lowerAlnum_lower_fix : ∀ c ∈ lowerAlnum, lowerChar c = c := by decide

theorem lowerAlnum_not_hyphen : ∀ c ∈ lowerAlnum, (if c = '-' then ' ' else c) = c := by
  decide

theorem lowerAlnum_not_space : ∀ c ∈ lowerAlnum, c ≠ ' ' := by decide

theorem dropWhile_eq_self_of_head (l : List Char)
    (h : l = [] ∨ ∃ c l2, l = c :: l2 ∧ isWsC c = false) :
    l.dropWhile isWsC = l := by
  rcases h with rfl | ⟨c, l2, rfl, hc⟩
  · rfl
  · rw [List.dropWhile_cons, hc]
    simp

theorem trimC_eq_self (l : List Char)
    (h1 : l = [] ∨ ∃ c l2, l = c :: l2 ∧ isWsC c = false)
    (h2 : l.reverse = [] ∨ ∃ c l2, l.reverse = c :: l2 ∧ isWsC c = false) :
    trimC l = l := by
  unfold trimC
  rw [dropWhile_eq_self_of_head l h1, dropWhile_eq_self_of_head l.reverse h2,
    List.reverse_reverse]

theorem normToken_fix (t : List Char) (h : goodTok t) : normToken t = t := by
  obtain ⟨-, hchars, hlook⟩ := h
  have hmap : t.map lowerChar = t := by
    rw [List.map_congr_left (fun c hc => lowerAlnum_lower_fix c (hchars c hc))]
    exact List.map_id t
  have hnws : ∀ c ∈ t, isWsC c = false := fun c hc => lowerAlnum_not_ws c (hchars c hc)
  have htrim : trimC t = t := by
    apply trimC_eq_self
    · cases t with
      | nil => exact Or.inl rfl
      | cons c t2 => exact Or.inr ⟨c, t2, rfl, hnws c (by simp)⟩
    · cases hrev : t.reverse with
      | nil => exact Or.inl rfl
      | cons c l2 =>
        refine Or.inr ⟨c, l2, rfl, ?_⟩
        have : c ∈ t.reverse := by rw [hrev]; simp
        exact hnws c (List.mem_reverse.1 this)
  have hstrip : stripNonAlnum t = t := by
    apply List.filter_eq_self.2
    intro c hc
    exact List.elem_iff.2 (hchars c hc)
  unfold normToken
  rw [hmap, htrim, hstrip]
  dsimp only
  rw [hlook]

/-- Every character of a joined token sequence is a space or a character
    of one of the tokens. -/
theorem mem_joinSpace (ts : List (List Char)) (c : Char) (hc : c ∈ joinSpace ts) :
    c = ' ' ∨ ∃ t ∈ ts, c ∈ t := by
  induction ts with
  | nil => simp [joinSpace] at hc
  | cons t ts ih =>
    cases ts with
    | nil =>
      exact Or.inr ⟨t, by simp, hc⟩
    | cons t2 ts2 =>
      have hc2 : c ∈ t ++ ' ' :: joinSpace (t2 :: ts2) := hc
      rcases List.mem_append.1 hc2 with h | h
      · exact Or.inr ⟨t, by simp, h⟩
      · rcases List.mem_cons.1 h with h | h
        · exact Or.inl h
        · rcases ih h with h | ⟨u, hu, hcu⟩
          · exact Or.inl h
          · exact Or.inr ⟨u, List.mem_cons_of_mem t hu, hcu⟩

theorem collapseWsAux_cons_nonws (b : Bool) (c : Char) (cs : List Char)
    (h : isWsC c = false) : collapseWsAux b (c :: cs) = c :: collapseWsAux false cs := by
  simp [collapseWsAux, h]

theorem collapseWsAux_nonws_append (u : List Char) (b : Bool) (rest : List Char)
    (hne : u ≠ []) (hnws : ∀ c ∈ u, isWsC c = false) :
    collapseWsAux b (u ++ rest) = u ++ collapseWsAux false rest := by
  induction u generalizing b with
  | nil => exact absurd rfl hne
  | cons c u2 ih =>
    show collapseWsAux b (c :: (u2 ++ rest)) = c :: (u2 ++ collapseWsAux false rest)
    rw [collapseWsAux_cons_nonws b c _ (hnws c (by simp))]
    cases u2 with
    | nil => rfl
    | cons d u3 =>
      rw [ih false (by simp) (fun x hx => hnws x (List.mem_cons_of_mem c hx))]

theorem collapse_join (ts : List (List Char)) (b : Bool) (hne : ts ≠ [])
    (hg : ∀ t ∈ ts, goodTok t) : collapseWsAux b (joinSpace ts) = joinSpace ts := by
  induction ts generalizing b with
  | nil => exact absurd rfl hne
  | cons t ts ih =>
    have ht := hg t (by simp)
    have htnws : ∀ c ∈ t, isWsC c = false :=
      fun c hc => lowerAlnum_not_ws c (ht.2.1 c hc)
    cases ts with
    | nil =>
      show collapseWsAux b t = t
      calc collapseWsAux b t = collapseWsAux b (t ++ []) := by rw [List.append_nil]
        _ = t ++ collapseWsAux false [] := collapseWsAux_nonws_append t b [] ht.1 htnws
        _ = t := by simp [collapseWsAux]
    | cons t2 ts2 =>
      show collapseWsAux b (t ++ ' ' :: joinSpace (t2 :: ts2)) =
        t ++ ' ' :: joinSpace (t2 :: ts2)
      rw [collapseWsAux_nonws_append t b _ ht.1 htnws]
      show t ++ ' ' :: collapseWsAux true (joinSpace (t2 :: ts2)) = _
      rw [ih true (by simp) (fun x hx => hg x (List.mem_cons_of_mem t hx))]

/-- The reversed join of a non-empty sequence of good tokens starts with
    a non-whitespace character. -/
theorem join_reverse_head (ts : List (List Char)) (hne : ts ≠ [])
    (hg : ∀ t ∈ ts, goodTok t) :
    ∃ c l2, (joinSpace ts).reverse = c :: l2 ∧ isWsC c = false := by
  induction ts with
  | nil => exact absurd rfl hne
  | cons t ts ih =>
    have ht := hg t (by simp)
    cases ts with
    | nil =>
      show ∃ c l2, t.reverse = c :: l2 ∧ isWsC c = false
      cases hrev : t.reverse with
      | nil =>
        rw [List.reverse_eq_nil_iff] at hrev
        exact absurd hrev ht.1
      | cons c l2 =>
        refine ⟨c, l2, rfl, ?_⟩
        have hm : c ∈ t.reverse := by rw [hrev]; simp
        exact lowerAlnum_not_ws c (ht.2.1 c (List.mem_reverse.1 hm))
    | cons t2 ts2 =>
      obtain ⟨c, l2, hrev, hc⟩ := ih (by simp) (fun x hx => hg x (List.mem_cons_of_mem t hx))
      refine ⟨c, l2 ++ ' ' :: t.reverse, ?_, hc⟩
      show (t ++ ' ' :: joinSpace (t2 :: ts2)).reverse = _
      rw [List.reverse_append, List.reverse_cons, hrev]
      simp

/-- The join of a non-empty sequence of good tokens starts with a
    non-whitespace character. -/
theorem join_head (ts : List (List Char)) (hne : ts ≠ []) (hg : ∀ t ∈ ts, goodTok t) :
    ∃ c l2, joinSpace ts = c :: l2 ∧ isWsC c = false := by
  cases ts with
  | nil => exact absurd rfl hne
  | cons t ts =>
    have ht := hg t (by simp)
    cases t with
    | nil => exact absurd rfl ht.1
    | cons c t2 =>
      have hcw : isWsC c = false := lowerAlnum_not_ws c (ht.2.1 c (by simp))
      cases ts with
      | nil => exact ⟨c, t2, rfl, hcw⟩
      | cons t3 ts3 => exact ⟨c, t2 ++ ' ' :: joinSpace (t3 :: ts3), rfl, hcw⟩

theorem splitSpace_ne_nil (cs : List Char) : splitSpace cs ≠ [] := by
  induction cs with
  | nil => simp [splitSpace]
  | cons c cs ih =>
    unfold splitSpace
    split
    · simp
    · cases h : splitSpace cs with
      | nil => exact absurd h ih
      | cons x xs => simp

theorem splitSpace_cons_nonspace (c : Char) (cs : List Char) (h : c ≠ ' ') :
    splitSpace (c :: cs) =
      (match splitSpace cs with
       | t :: ts => (c :: t) :: ts
       | [] => [[c]]) := by
  simp only [splitSpace, h, if_false]

theorem splitSpace_append (u rest : List Char) (h : ∀ c ∈ u, c ≠ ' ') :
    splitSpace (u ++ rest) =
      (match splitSpace rest with
       | x :: xs => (u ++ x) :: xs
       | [] => [u]) := by
  induction u with
  | nil =>
    cases hr : splitSpace rest with
    | nil => exact absurd hr (splitSpace_ne_nil rest)
    | cons x xs => simpa using hr
  | cons c u2 ih =>
    show splitSpace (c :: (u2 ++ rest)) = _
    rw [splitSpace_cons_nonspace c _ (h c (by simp))]
    rw [ih (fun x hx => h x (List.mem_cons_of_mem c hx))]
    cases hr : splitSpace rest with
    | nil => exact absurd hr (splitSpace_ne_nil rest)
    | cons x xs => rfl

theorem split_join (ts : List (List Char)) (hne : ts ≠ [])
    (hg : ∀ t ∈ ts, ∀ c ∈ t, c ≠ ' ') : splitSpace (joinSpace ts) = ts := by
  induction ts with
  | nil => exact absurd rfl hne
  | cons t ts ih =>
    cases ts with
    | nil =>
      show splitSpace t = [t]
      have := splitSpace_append t [] (hg t (by simp))
      rw [List.append_nil] at this
      rw [this]
      simp [splitSpace]
    | cons t2 ts2 =>
      show splitSpace (t ++ ' ' :: joinSpace (t2 :: ts2)) = t :: t2 :: ts2
      rw [splitSpace_append t _ (hg t (by simp))]
      have hsp : splitSpace (' ' :: joinSpace (t2 :: ts2)) =
          [] :: splitSpace (joinSpace (t2 :: ts2)) := rfl
      rw [hsp, ih (by simp) (fun x hx => hg x (List.mem_cons_of_mem t hx))]
      simp

theorem clean_join (ts : List (List Char)) (hg : ∀ t ∈ ts, goodTok t) :
    clean (joinSpace ts) = joinSpace ts := by
  cases hts : ts with
  | nil => rfl
  | cons t ts2 =>
    subst hts
    have hchars : ∀ c ∈ joinSpace (t :: ts2), c = ' ' ∨ c ∈ lowerAlnum := by
      intro c hc
      rcases mem_joinSpace _ c hc with h | ⟨u, hu, hcu⟩
      · exact Or.inl h
      · exact Or.inr ((hg u hu).2.1 c hcu)
    unfold clean
    have hlow : (joinSpace (t :: ts2)).map lowerChar = joinSpace (t :: ts2) := by
      rw [List.map_congr_left, List.map_id]
      intro c hc
      rcases hchars c hc with rfl | h
      · rfl
      · exact lowerAlnum_lower_fix c h
    have hhyp : (joinSpace (t :: ts2)).map (fun c => if c = '-' then ' ' else c) =
        joinSpace (t :: ts2) := by
      rw [List.map_congr_left, List.map_id]
      intro c hc
      rcases hchars c hc with rfl | h
      · rfl
      · exact lowerAlnum_not_hyphen c h
    rw [hlow, hhyp]
    show trimC (collapseWs (joinSpace (t :: ts2))) = joinSpace (t :: ts2)
    rw [show collapseWs (joinSpace (t :: ts2)) = joinSpace (t :: ts2) from
      collapse_join _ false (by simp) hg]
    apply trimC_eq_self
    · obtain ⟨c, l2, h1, h2⟩ := join_head (t :: ts2) (by simp) hg
      exact Or.inr ⟨c, l2, h1, h2⟩
    · obtain ⟨c, l2, h1, h2⟩ := join_reverse_head (t :: ts2) (by simp) hg
      exact Or.inr ⟨c, l2, h1, h2⟩

/-- Claim C8: the phrase normalizer is a fixed point on its own output,
    so running the pipeline on an already normalized token sequence,
    rejoined with single spaces, returns the same token sequence. -/
theorem normalizer_idempotent (raw : String) :
    normalizePipeline (joinSpace (normalizePipeline raw.data)) =
      normalizePipeline raw.data := by
  cases hts : normalizePipeline raw.data with
  | nil => decide
  | cons t ts2 =>
    have hg : ∀ x ∈ t :: ts2, goodTok x := by
      rw [← hts]
      exact tokenize_good (clean raw.data)
    show normalizePipeline (joinSpace (t :: ts2)) = t :: ts2
    unfold normalizePipeline tokenize
    rw [clean_join _ hg]
    rw [split_join _ (by simp)
      (fun x hx c hc => lowerAlnum_not_space c ((hg x hx).2.1 c hc))]
    rw [List.map_congr_left (fun x hx => normToken_fix x (hg x hx)), List.map_id']
    apply List.filter_eq_self.2
    intro a ha
    have := (hg a ha).1
    simp [List.isEmpty_iff, this]

end Blindfold
